import Mathlib

/-!
Verification of the Holidays vacation-planner core logic.

Dates are modelled as integers (one unit = one calendar day); Python's
`date ± timedelta(days=1)` becomes `± 1`.  A `Vacation` mirrors the ORM row
of `models.py` (id, employee_id, start_date, end_date, vacation_type, notes);
a `VacRec` is the id-less value content of such a row, used by the toggle
endpoint and the calendar projector, which never read the id of the rows
they create or expand.
-/

namespace Holidays

/-- Id-less vacation record: the value content of a `Vacation` row, as
constructed by `api.py`'s toggle endpoint (the database assigns ids). -/
structure VacRec where
  employee_id : Int
  start_date : Int
  end_date : Int
  vacation_type : String
  notes : Option String
deriving DecidableEq, Repr

/-- Vacation row of `models.py`, with its primary key. -/
structure Vacation where
  id : Int
  employee_id : Int
  start_date : Int
  end_date : Int
  vacation_type : String
  notes : Option String
deriving DecidableEq, Repr

/-! ## Toggle endpoint (`api.py`, `toggle_vacation`) -/

/-- The filter of the query
`session.query(Vacation).filter(employee_id == emp, start_date <= d, end_date >= d)`. -/
def vacContains (emp d : Int) (v : VacRec) : Bool :=
  v.employee_id == emp && decide (v.start_date ≤ d) && decide (v.end_date ≥ d)

/-- `.first()` on that query: the first stored record of employee `emp`
containing day `d`. -/
def findExisting (vacs : List VacRec) (emp d : Int) : Option VacRec :=
  vacs.find? (vacContains emp d)

/-- The replacement records built in the `existing_vacation` branch of
`toggle_vacation`: a left part `[original_start, d-1]` when
`original_start < d`, and a right part `[d+1, original_end]` when
`original_end > d`, both copying `vacation_type` and `notes`. -/
def splitParts (v : VacRec) (emp d : Int) : List VacRec :=
  (if v.start_date < d then
    [⟨emp, v.start_date, d - 1, v.vacation_type, v.notes⟩] else [])
  ++ (if v.end_date > d then
    [⟨emp, d + 1, v.end_date, v.vacation_type, v.notes⟩] else [])

/-- `toggle_vacation` of `api.py` as a function on the stored records:
if a record of `emp` contains `d` it is deleted and the split parts are
added; otherwise a fresh single-day record `[d, d]` of type `"vacation"`
is added. -/
def toggle_vacation (vacs : List VacRec) (emp d : Int) : List VacRec :=
  match findExisting vacs emp d with
  | some v => vacs.erase v ++ splitParts v emp d
  | none => vacs ++ [⟨emp, d, d, "vacation", none⟩]

/-- The sequence of states committed by `toggle_vacation`, in order: the
remove branch runs `session.commit()` right after `session.delete` and again
after adding the split parts, so two states are committed; the add branch
commits once. -/
def toggleCommits (vacs : List VacRec) (emp d : Int) : List (List VacRec) :=
  match findExisting vacs emp d with
  | some v => [vacs.erase v, vacs.erase v ++ splitParts v emp d]
  | none => [vacs ++ [⟨emp, d, d, "vacation", none⟩]]

/-! ## Conflict detector (`utils/calendar_utils.py`, `get_vacation_conflicts`) -/

/-- The guard `if exclude_vacation_id and vacation.id == exclude_vacation_id`:
Python truthiness makes both `None` and `0` skip the exclusion. -/
def excludeMatches (exclude : Option Int) (vid : Int) : Bool :=
  match exclude with
  | none => false
  | some x => decide (x ≠ 0) && decide (vid = x)

/-- `get_vacation_conflicts`: walks `existing_vacations`; skips records of a
different employee, skips the excluded id (when truthy), and collects every
record with `start_date <= vacation.end_date and end_date >= vacation.start_date`. -/
def get_vacation_conflicts (employee_id start_date end_date : Int)
    (existing : List Vacation) (exclude : Option Int) : List Vacation :=
  match existing with
  | [] => []
  | v :: rest =>
    if v.employee_id ≠ employee_id then
      get_vacation_conflicts employee_id start_date end_date rest exclude
    else if excludeMatches exclude v.id then
      get_vacation_conflicts employee_id start_date end_date rest exclude
    else if start_date ≤ v.end_date ∧ end_date ≥ v.start_date then
      v :: get_vacation_conflicts employee_id start_date end_date rest exclude
    else
      get_vacation_conflicts employee_id start_date end_date rest exclude

/-! ## Range creation (`api.py` `create_vacation_range`, `database.py` `create_vacation`) -/

/-- `create_vacation` of `database.py`: builds the row (the store assigns
`newId`) and commits it; no conflict check anywhere on this path. -/
def create_vacation (store : List Vacation) (newId employee_id start_date end_date : Int)
    (vacation_type : String) (notes : Option String) : List Vacation :=
  store ++ [⟨newId, employee_id, start_date, end_date, vacation_type, notes⟩]

/-- `create_vacation_range` of `api.py`: persists the requested range
unconditionally and answers `"created"` (the source comments that conflict
checks are not performed). -/
def create_vacation_range (store : List Vacation) (newId employee_id start_date end_date : Int)
    (vacation_type : String) (notes : Option String) : List Vacation × String :=
  (create_vacation store newId employee_id start_date end_date vacation_type notes, "created")

/-! ## Calendar projector (`utils/calendar_utils.py`, `generate_calendar_data`) -/

/-- The closed integer interval `[a, b]` as a list, `a, a+1, …, b`
(empty when `b < a`): the `while current <= end_date` walk. -/
def rangeList (a b : Int) : List Int :=
  (List.range (b + 1 - a).toNat).map (fun (i : Nat) => a + (i : Int))

/-- The days of one vacation record kept by the window test
`start_date <= current <= end_date` of the projector loop. -/
def clippedDays (v : VacRec) (ws we : Int) : List Int :=
  (rangeList v.start_date v.end_date).filter (fun d => decide (ws ≤ d) && decide (d ≤ we))

/-- `vacation_dates` of `generate_calendar_data` for one employee: the set of
clipped days of the employee's records (a Python `set`). -/
def vacation_dates (vacs : List VacRec) (empId ws we : Int) : Finset Int :=
  ((vacs.filter (fun v => v.employee_id == empId)).flatMap
    (fun v => clippedDays v ws we)).toFinset

/-- `total_days` of `generate_calendar_data`: `len(vacation_dates)`. -/
def total_days (vacs : List VacRec) (empId ws we : Int) : Nat :=
  (vacation_dates vacs empId ws we).card

/-! ## Range normalizer

Modelled from the spec: the Range Normalizer (`normalize`) has no
implementation under `src/`; §4.3 of the spec defines it: sort the day set
ascending, walk the sorted days extending the current range while the next
day is exactly `prev + 1`, otherwise close the range and start a new one. -/

/-- Modelled from the spec: the walk of §4.3 — current range is `[s, e]`,
the next sorted day extends it exactly when it equals `e + 1`. -/
def collapse (s e : Int) : List Int → List (Int × Int)
  | [] => [(s, e)]
  | x :: xs => if x = e + 1 then collapse s x xs else (s, e) :: collapse x x xs

/-- Modelled from the spec: `normalize(days)` — sort ascending, then walk. -/
def normalize (days : Finset Int) : List (Int × Int) :=
  match days.sort (· ≤ ·) with
  | [] => []
  | d :: rest => collapse d d rest

/-- Day-set expansion of a list of closed ranges (the RangeSet view of §3). -/
def expand (ranges : List (Int × Int)) : Finset Int :=
  ranges.foldr (fun r acc => Finset.Icc r.1 r.2 ∪ acc) ∅

/-! ## Invariants -/

/-- Every record satisfies `start_date ≤ end_date`. -/
def ValidAll (vacs : List VacRec) : Prop :=
  ∀ v ∈ vacs, v.start_date ≤ v.end_date

/-- Two records are day-disjoint whenever they belong to the same employee. -/
def DisjRel (u v : VacRec) : Prop :=
  u.employee_id = v.employee_id →
    u.end_date < v.start_date ∨ v.end_date < u.start_date

/-- Records of one employee are pairwise day-disjoint. -/
def Disj (vacs : List VacRec) : Prop :=
  vacs.Pairwise DisjRel

/-- Decidable check that a record list is normalized in the sense of §4.1:
every record valid, and same-employee records neither overlap nor touch. -/
def normalizedB (vacs : List VacRec) : Bool :=
  vacs.all (fun v => decide (v.start_date ≤ v.end_date)) &&
  match vacs with
  | [] => true
  | v :: rest =>
    rest.all (fun u => v.employee_id != u.employee_id ||
      decide (v.end_date + 1 < u.start_date) || decide (u.end_date + 1 < v.start_date)) &&
    normalizedB rest

/-- A range list is minimal in the sense of §3/§4.3: each range valid, and
consecutive ranges separated by a gap of at least one day (sorted, disjoint,
non-adjacent). -/
def Minimal (ranges : List (Int × Int)) : Prop :=
  (∀ r ∈ ranges, r.1 ≤ r.2) ∧ ranges.Chain' (fun a b => a.2 + 1 < b.1)

/-- Day-coverage of the stored records: is day `x` of employee `e` covered? -/
def coveredB (vacs : List VacRec) (e x : Int) : Bool :=
  vacs.any (fun v => vacContains e x v)

/-- Day-coverage as a proposition: some record of employee `e` contains day `x`. -/
def Covered (vacs : List VacRec) (e x : Int) : Prop :=
  ∃ v ∈ vacs, v.employee_id = e ∧ v.start_date ≤ x ∧ x ≤ v.end_date

instance (l : List VacRec) : Decidable (ValidAll l) :=
  inferInstanceAs (Decidable (∀ v ∈ l, v.start_date ≤ v.end_date))

instance (u v : VacRec) : Decidable (DisjRel u v) :=
  inferInstanceAs (Decidable (u.employee_id = v.employee_id →
    u.end_date < v.start_date ∨ v.end_date < u.start_date))

instance (l : List VacRec) : Decidable (Disj l) :=
  inferInstanceAs (Decidable (List.Pairwise DisjRel l))

instance (ranges : List (Int × Int)) : Decidable (Minimal ranges) :=
  inferInstanceAs (Decidable ((∀ r ∈ ranges, r.1 ≤ r.2) ∧
    ranges.Chain' (fun (a b : Int × Int) => a.2 + 1 < b.1)))

instance (vacs : List VacRec) (e x : Int) : Decidable (Covered vacs e x) :=
  inferInstanceAs (Decidable (∃ v ∈ vacs, v.employee_id = e ∧
    v.start_date ≤ x ∧ x ≤ v.end_date))

/-! ## Helper lemmas -/

lemma mem_rangeList {a b x : Int} : x ∈ rangeList a b ↔ a ≤ x ∧ x ≤ b := by
  unfold rangeList
  rw [List.mem_map]
  constructor
  · rintro ⟨i, hi, rfl⟩
    rw [List.mem_range] at hi
    omega
  · rintro ⟨h1, h2⟩
    refine ⟨(x - a).toNat, ?_, ?_⟩
    · rw [List.mem_range]
      omega
    · omega

lemma rangeList_eq_nil {a b : Int} (h : b < a) : rangeList a b = [] := by
  have hz : (b + 1 - a).toNat = 0 := by omega
  simp [rangeList, hz]

lemma rangeList_cons {a b : Int} (h : a ≤ b) :
    rangeList a b = a :: rangeList (a + 1) b := by
  unfold rangeList
  have hn : (b + 1 - a).toNat = (b + 1 - (a + 1)).toNat + 1 := by omega
  rw [hn, List.range_succ_eq_map, List.map_cons, List.map_map]
  refine List.cons_eq_cons.mpr ⟨by simp, ?_⟩
  apply List.map_congr_left
  intro i _
  simp only [Function.comp_apply, Nat.succ_eq_add_one]
  push_cast
  ring

lemma sorted_rangeList (a b : Int) : (rangeList a b).Sorted (· < ·) := by
  unfold rangeList List.Sorted
  rw [List.pairwise_map]
  have h := List.pairwise_lt_range ((b + 1 - a).toNat)
  refine h.imp ?_
  intro i j hij
  omega

lemma vacContains_iff {emp d : Int} {v : VacRec} :
    vacContains emp d v = true ↔
      v.employee_id = emp ∧ v.start_date ≤ d ∧ d ≤ v.end_date := by
  simp [vacContains, and_assoc]

lemma disjRel_symm : Symmetric DisjRel := by
  intro u v h he
  exact (h he.symm).symm

lemma disjRel_of_mem_of_mem {R : List VacRec} (hdisj : Disj R) {u v : VacRec}
    (hu : u ∈ R) (hv : v ∈ R) (hne : u ≠ v) : DisjRel u v :=
  List.Pairwise.forall disjRel_symm hdisj hu hv hne

/-- Under disjointness, the record found by the toggle query is the unique
record of `emp` containing `d`. -/
lemma findExisting_eq_of_mem {R : List VacRec} {emp d : Int} (hdisj : Disj R)
    {r : VacRec} (hr : r ∈ R) (hremp : r.employee_id = emp)
    (h1 : r.start_date ≤ d) (h2 : d ≤ r.end_date) :
    findExisting R emp d = some r := by
  rcases hfound : findExisting R emp d with _ | v
  · rw [findExisting, List.find?_eq_none] at hfound
    exact absurd (vacContains_iff.mpr ⟨hremp, h1, h2⟩) (hfound r hr)
  · have hvmem : v ∈ R := List.mem_of_find?_eq_some hfound
    have hvpred := vacContains_iff.mp (List.find?_some hfound)
    by_cases hvr : v = r
    · rw [hvr]
    · have hrel := disjRel_of_mem_of_mem hdisj hvmem hr hvr
      have := hrel (hvpred.1.trans hremp.symm)
      rcases hvpred with ⟨-, hv1, hv2⟩
      omega

lemma findExisting_none_iff {R : List VacRec} {emp d : Int} :
    findExisting R emp d = none ↔
      ∀ v ∈ R, ¬(v.employee_id = emp ∧ v.start_date ≤ d ∧ d ≤ v.end_date) := by
  rw [findExisting, List.find?_eq_none]
  constructor
  · intro h v hv hc
    exact h v hv (vacContains_iff.mpr hc)
  · intro h v hv hc
    exact h v hv (vacContains_iff.mp hc)

/-- What `findExisting` guarantees about the record it returns. -/
lemma findExisting_some {R : List VacRec} {emp d : Int} {v : VacRec}
    (h : findExisting R emp d = some v) :
    v ∈ R ∧ v.employee_id = emp ∧ v.start_date ≤ d ∧ d ≤ v.end_date :=
  ⟨List.mem_of_find?_eq_some h, vacContains_iff.mp (List.find?_some h)⟩

/-- Every record surviving the erase is day-disjoint from the erased one
(when of the same employee). -/
lemma disjRel_erase {R : List VacRec} (hdisj : Disj R) {v : VacRec} (hv : v ∈ R) :
    ∀ a ∈ R.erase v, DisjRel a v := by
  obtain ⟨l₁, l₂, -, hdec, herase⟩ := List.exists_erase_eq hv
  rw [herase]
  subst hdec
  rw [Disj, List.pairwise_append, List.pairwise_cons] at hdisj
  intro a ha
  rcases List.mem_append.mp ha with h1 | h2
  · exact hdisj.2.2 a h1 v (List.mem_cons_self v l₂)
  · exact disjRel_symm (hdisj.2.1.1 a h2)

lemma disj_erase {R : List VacRec} (hdisj : Disj R) (v : VacRec) :
    Disj (R.erase v) :=
  hdisj.sublist (List.erase_sublist v R)

/-- Shape of every replacement record: employee `emp`, type and notes of the
original, day-span inside the original's span and avoiding `d`, valid. -/
lemma splitParts_spec {v : VacRec} {emp d : Int}
    (h1 : v.start_date ≤ d) (h2 : d ≤ v.end_date) :
    ∀ r ∈ splitParts v emp d,
      r.employee_id = emp ∧ r.vacation_type = v.vacation_type ∧ r.notes = v.notes ∧
      v.start_date ≤ r.start_date ∧ r.end_date ≤ v.end_date ∧
      r.start_date ≤ r.end_date ∧ ¬(r.start_date ≤ d ∧ d ≤ r.end_date) := by
  intro r hr
  unfold splitParts at hr
  rw [List.mem_append] at hr
  rcases hr with h | h
  · split_ifs at h with hlt
    · rw [List.mem_singleton] at h
      subst h
      exact ⟨rfl, rfl, rfl, le_refl _, show d - 1 ≤ v.end_date by omega,
        show v.start_date ≤ d - 1 by omega,
        show ¬(v.start_date ≤ d ∧ d ≤ d - 1) by omega⟩
    · exact absurd h (List.not_mem_nil r)
  · split_ifs at h with hgt
    · rw [List.mem_singleton] at h
      subst h
      exact ⟨rfl, rfl, rfl, show v.start_date ≤ d + 1 by omega, le_refl _,
        show d + 1 ≤ v.end_date by omega,
        show ¬(d + 1 ≤ d ∧ d ≤ v.end_date) by omega⟩
    · exact absurd h (List.not_mem_nil r)

/-- A day of the original other than `d` stays covered by the replacements. -/
lemma covered_splitParts {v : VacRec} {emp d x : Int}
    (hd1 : v.start_date ≤ d) (hd2 : d ≤ v.end_date) (hx : x ≠ d)
    (h1 : v.start_date ≤ x) (h2 : x ≤ v.end_date) :
    Covered (splitParts v emp d) emp x := by
  rcases lt_or_gt_of_ne hx with hlt | hgt
  · refine ⟨⟨emp, v.start_date, d - 1, v.vacation_type, v.notes⟩, ?_, rfl, h1,
      show x ≤ d - 1 by omega⟩
    unfold splitParts
    rw [if_pos (show v.start_date < d by omega)]
    exact List.mem_append.mpr (Or.inl (List.mem_singleton.mpr rfl))
  · refine ⟨⟨emp, d + 1, v.end_date, v.vacation_type, v.notes⟩, ?_, rfl,
      show d + 1 ≤ x by omega, h2⟩
    unfold splitParts
    refine List.mem_append.mpr (Or.inr ?_)
    rw [if_pos (show v.end_date > d by omega)]
    exact List.mem_singleton.mpr rfl

lemma covered_append {l₁ l₂ : List VacRec} {e x : Int} :
    Covered (l₁ ++ l₂) e x ↔ Covered l₁ e x ∨ Covered l₂ e x := by
  unfold Covered
  constructor
  · rintro ⟨v, hv, h⟩
    rcases List.mem_append.mp hv with h1 | h1
    exacts [Or.inl ⟨v, h1, h⟩, Or.inr ⟨v, h1, h⟩]
  · rintro (⟨v, hv, h⟩ | ⟨v, hv, h⟩)
    exacts [⟨v, List.mem_append.mpr (Or.inl hv), h⟩,
            ⟨v, List.mem_append.mpr (Or.inr hv), h⟩]

/-- Toggling preserves validity of every record. -/
lemma validAll_toggle {R : List VacRec} {emp d : Int} (hval : ValidAll R) :
    ValidAll (toggle_vacation R emp d) := by
  unfold toggle_vacation
  rcases hfe : findExisting R emp d with _ | v
  · intro u hu
    rcases List.mem_append.mp hu with h | h
    · exact hval u h
    · rw [List.mem_singleton] at h
      subst h
      exact le_refl d
  · obtain ⟨hm, hemp, h1, h2⟩ := findExisting_some hfe
    intro u hu
    rcases List.mem_append.mp hu with h | h
    · exact hval u (List.mem_of_mem_erase h)
    · exact ((splitParts_spec h1 h2 u h).2.2.2.2.2).1

/-- Toggling preserves pairwise day-disjointness of same-employee records. -/
lemma disj_toggle {R : List VacRec} {emp d : Int} (hdisj : Disj R) :
    Disj (toggle_vacation R emp d) := by
  unfold toggle_vacation
  rcases hfe : findExisting R emp d with _ | v
  · rw [Disj, List.pairwise_append]
    refine ⟨hdisj, List.pairwise_singleton _ _, ?_⟩
    intro a ha b hb
    rw [List.mem_singleton] at hb
    subst hb
    intro he
    have hnc := findExisting_none_iff.mp hfe a ha
    rw [not_and, not_and] at hnc
    by_cases hs : a.start_date ≤ d
    · left
      have := hnc he hs
      change a.end_date < d
      omega
    · right
      change d < a.start_date
      omega
  · obtain ⟨hm, hemp, h1, h2⟩ := findExisting_some hfe
    rw [Disj, List.pairwise_append]
    refine ⟨disj_erase hdisj v, ?_, ?_⟩
    · unfold splitParts
      split_ifs with hl hr hr2
      · refine List.pairwise_append.mpr
          ⟨List.pairwise_singleton _ _, List.pairwise_singleton _ _, ?_⟩
        intro a ha b hb
        rw [List.mem_singleton] at ha hb
        subst ha
        subst hb
        intro _
        left
        change d - 1 < d + 1
        omega
      all_goals simp [List.Pairwise]
    · intro a ha b hb
      have hrel := disjRel_erase hdisj hm a ha
      obtain ⟨hbemp, -, -, hbs, hbe, -, -⟩ := splitParts_spec h1 h2 b hb
      intro he
      rcases hrel (he.trans (hbemp.trans hemp.symm)) with hc | hc
      · left
        omega
      · right
        omega

/-- Master lemma: a toggle flips the coverage of exactly the toggled
(employee, day) pair and leaves every other pair's coverage unchanged. -/
lemma covered_toggle {R : List VacRec} {emp d : Int} (hdisj : Disj R) (e x : Int) :
    Covered (toggle_vacation R emp d) e x ↔
      (if e = emp ∧ x = d then ¬ Covered R emp d else Covered R e x) := by
  unfold toggle_vacation
  rcases hfe : findExisting R emp d with _ | v
  · have hnone := findExisting_none_iff.mp hfe
    rw [covered_append]
    have hnew : Covered [⟨emp, d, d, "vacation", none⟩] e x ↔ (e = emp ∧ x = d) := by
      simp only [Covered, List.mem_singleton, exists_eq_left]
      omega
    have hncov : ¬ Covered R emp d := by
      rintro ⟨u, hu, hue, hus, hud⟩
      exact hnone u hu ⟨hue, hus, hud⟩
    by_cases hc : e = emp ∧ x = d
    · rw [if_pos hc, hnew]
      rcases hc with ⟨he, hx⟩
      subst he
      subst hx
      simp [hncov]
    · rw [if_neg hc, hnew]
      simp [hc]
  · obtain ⟨hm, hemp, h1, h2⟩ := findExisting_some hfe
    rw [covered_append]
    by_cases hc : e = emp ∧ x = d
    · rcases hc with ⟨he, hx⟩
      subst he
      subst hx
      rw [if_pos ⟨rfl, rfl⟩]
      have hcov : Covered R e x := ⟨v, hm, hemp, h1, h2⟩
      have hse : ¬ Covered (R.erase v) e x := by
        rintro ⟨u, hu, hue, hus, hud⟩
        rcases disjRel_erase hdisj hm u hu (hue.trans hemp.symm) with hcd | hcd <;> omega
      have hsp : ¬ Covered (splitParts v e x) e x := by
        rintro ⟨u, hu, hue, hus, hud⟩
        exact ((splitParts_spec h1 h2 u hu).2.2.2.2.2).2 ⟨hus, hud⟩
      simp [hse, hsp, hcov]
    · rw [if_neg hc]
      constructor
      · rintro (⟨u, hu, hue, hus, hud⟩ | ⟨u, hu, hue, hus, hud⟩)
        · exact ⟨u, List.mem_of_mem_erase hu, hue, hus, hud⟩
        · obtain ⟨huemp, -, -, hubs, hube, -, -⟩ := splitParts_spec h1 h2 u hu
          refine ⟨v, hm, ?_, by omega, by omega⟩
          rw [hemp, ← huemp, hue]
      · rintro ⟨u, hu, hue, hus, hud⟩
        by_cases huv : u = v
        · subst huv
          right
          have he : e = emp := hue ▸ hemp
          subst he
          have hx : x ≠ d := fun hxd => hc ⟨rfl, hxd⟩
          exact covered_splitParts h1 h2 hx hus hud
        · exact Or.inl ⟨u, (List.mem_erase_of_ne huv).mpr hu, hue, hus, hud⟩

/-! ## Normalizer round-trip machinery -/

/-- The walk of `normalize` on an already sorted day list. -/
def normTail : List Int → List (Int × Int)
  | [] => []
  | d :: rest => collapse d d rest

lemma normalize_eq_normTail (days : Finset Int) :
    normalize days = normTail (days.sort (· ≤ ·)) := by
  rcases h : days.sort (· ≤ ·) with _ | ⟨d, rest⟩ <;> simp [normalize, normTail, h]

/-- The expansion of a range list as a flat day list, range by range. -/
def expandList (ranges : List (Int × Int)) : List Int :=
  ranges.flatMap (fun r => rangeList r.1 r.2)

lemma mem_expandList {ranges : List (Int × Int)} {x : Int} :
    x ∈ expandList ranges ↔ ∃ r ∈ ranges, r.1 ≤ x ∧ x ≤ r.2 := by
  simp [expandList, List.mem_flatMap, mem_rangeList]

lemma mem_expand {ranges : List (Int × Int)} {x : Int} :
    x ∈ expand ranges ↔ ∃ r ∈ ranges, r.1 ≤ x ∧ x ≤ r.2 := by
  induction ranges with
  | nil => simp [expand]
  | cons r rest ih =>
    simp only [expand, List.foldr_cons, Finset.mem_union, Finset.mem_Icc] at *
    rw [ih]
    simp

lemma minimal_cons {r : Int × Int} {rest : List (Int × Int)}
    (h : Minimal (r :: rest)) : Minimal rest :=
  ⟨fun u hu => h.1 u (List.mem_cons_of_mem r hu), h.2.tail⟩

/-- In a minimal list, every day of the tail lies strictly beyond the head
range's end plus the mandatory gap. -/
lemma minimal_tail_gap {r : Int × Int} {rest : List (Int × Int)}
    (h : Minimal (r :: rest)) : ∀ x ∈ expandList rest, r.2 + 1 < x := by
  induction rest generalizing r with
  | nil => simp [expandList]
  | cons r' rest' ih =>
    intro x hx
    have hgap : r.2 + 1 < r'.1 := List.chain'_cons.mp h.2 |>.1
    have hval : r'.1 ≤ r'.2 := h.1 r' (by simp)
    rw [expandList, List.flatMap_cons, List.mem_append] at hx
    rcases hx with hx | hx
    · have := mem_rangeList.mp hx
      omega
    · have := ih (minimal_cons h) x hx
      omega

lemma sorted_expandList {ranges : List (Int × Int)} (h : Minimal ranges) :
    (expandList ranges).Sorted (· < ·) := by
  induction ranges with
  | nil => simp [expandList]
  | cons r rest ih =>
    rw [expandList, List.flatMap_cons]
    rw [List.Sorted, List.pairwise_append]
    refine ⟨sorted_rangeList r.1 r.2, ih (minimal_cons h), ?_⟩
    intro a ha b hb
    have ha' := mem_rangeList.mp ha
    have hb' := minimal_tail_gap h b hb
    omega

lemma nodup_expandList {ranges : List (Int × Int)} (h : Minimal ranges) :
    (expandList ranges).Nodup :=
  (sorted_expandList h).nodup

/-- Sorting the expanded day set of a minimal range list gives back the
concatenated runs. -/
lemma expandList_cons (r : Int × Int) (rest : List (Int × Int)) :
    expandList (r :: rest) = rangeList r.1 r.2 ++ expandList rest := rfl

lemma sort_expand_eq {ranges : List (Int × Int)} (h : Minimal ranges) :
    (expand ranges).sort (· ≤ ·) = expandList ranges := by
  have hperm : List.Perm ((expand ranges).sort (· ≤ ·)) (expandList ranges) := by
    rw [List.perm_ext_iff_of_nodup (Finset.sort_nodup _ _) (nodup_expandList h)]
    intro a
    rw [Finset.mem_sort, mem_expand, mem_expandList]
  exact List.eq_of_perm_of_sorted hperm (Finset.sort_sorted _ _)
    (sorted_expandList h).le_of_lt

/-- The collapse walk consumes a full contiguous run `c+1, …, e` and then
closes the range `[s, e]`, provided what follows starts beyond `e + 1`. -/
lemma collapse_run : ∀ (n : Nat) (s c e : Int), c ≤ e → (e - c).toNat = n →
    ∀ L : List Int, (∀ x, L.head? = some x → e + 1 < x) →
      collapse s c (rangeList (c + 1) e ++ L) = (s, e) :: normTail L := by
  intro n
  induction n with
  | zero =>
    intro s c e hce hn L hL
    have hec : e = c := by omega
    subst hec
    rw [rangeList_eq_nil (by omega), List.nil_append]
    rcases L with _ | ⟨x, xs⟩
    · rfl
    · have hx : e + 1 < x := hL x rfl
      simp only [collapse, if_neg (show ¬ x = e + 1 by omega)]
      rfl
  | succ n ih =>
    intro s c e hce hn L hL
    have hclt : c < e := by omega
    rw [rangeList_cons (by omega), List.cons_append, collapse, if_pos rfl]
    exact ih s (c + 1) e (by omega) (by omega) L hL

/-- The collapse walk reconstructs a minimal range list from its expansion. -/
lemma normTail_expandList {ranges : List (Int × Int)} (h : Minimal ranges) :
    normTail (expandList ranges) = ranges := by
  induction ranges with
  | nil => rfl
  | cons r rest ih =>
    have hval : r.1 ≤ r.2 := h.1 r (by simp)
    rw [expandList_cons, rangeList_cons hval, List.cons_append, normTail]
    have hL : ∀ x, (expandList rest).head? = some x → r.2 + 1 < x := by
      intro x hx
      exact minimal_tail_gap h x (List.mem_of_mem_head? hx)
    rw [collapse_run (r.2 - r.1).toNat r.1 r.1 r.2 hval rfl (expandList rest) hL]
    rw [ih (minimal_cons h)]

/-! ## Claim theorems -/

/-- C1: on a list of non-overlapping ranges of one employee, `toggle_vacation`
follows the five-case rule: an interior day splits `[s,e]` into `[s,d-1]` and
`[d+1,e]`; `d = s < e` trims to `[s+1,e]`; `s < e = d` trims to `[s,e-1]`;
`s = e = d` deletes the range; and when no range contains `d`, the existing
ranges are kept and a single-day range `[d,d]` is added. -/
theorem toggle_case_analysis (R : List VacRec) (emp d : Int)
    (hemp : ∀ v ∈ R, v.employee_id = emp) (hdisj : Disj R) :
    ((∀ r ∈ R, ¬(r.start_date ≤ d ∧ d ≤ r.end_date)) →
        toggle_vacation R emp d = R ++ [⟨emp, d, d, "vacation", none⟩]) ∧
    (∀ r ∈ R, r.start_date ≤ d → d ≤ r.end_date →
      ((r.start_date < d → d < r.end_date →
          toggle_vacation R emp d = R.erase r ++
            [⟨emp, r.start_date, d - 1, r.vacation_type, r.notes⟩,
             ⟨emp, d + 1, r.end_date, r.vacation_type, r.notes⟩]) ∧
       (r.start_date = d → d < r.end_date →
          toggle_vacation R emp d =
            R.erase r ++ [⟨emp, d + 1, r.end_date, r.vacation_type, r.notes⟩]) ∧
       (r.start_date < d → r.end_date = d →
          toggle_vacation R emp d =
            R.erase r ++ [⟨emp, r.start_date, d - 1, r.vacation_type, r.notes⟩]) ∧
       (r.start_date = d → r.end_date = d →
          toggle_vacation R emp d = R.erase r))) := by
  constructor
  · intro hno
    have hfe : findExisting R emp d = none :=
      findExisting_none_iff.mpr (fun v hv hc => hno v hv ⟨hc.2.1, hc.2.2⟩)
    rw [toggle_vacation, hfe]
  · intro r hr h1 h2
    have hfe : findExisting R emp d = some r :=
      findExisting_eq_of_mem hdisj hr (hemp r hr) h1 h2
    have htog : toggle_vacation R emp d = R.erase r ++ splitParts r emp d := by
      rw [toggle_vacation, hfe]
    refine ⟨?_, ?_, ?_, ?_⟩
    · intro hs he
      rw [htog]
      unfold splitParts
      rw [if_pos hs, if_pos he]
      rfl
    · intro hs he
      rw [htog]
      unfold splitParts
      rw [if_neg (show ¬ r.start_date < d by omega), if_pos he, List.nil_append]
    · intro hs he
      rw [htog]
      unfold splitParts
      rw [if_pos hs, if_neg (show ¬ r.end_date > d by omega), List.append_nil]
    · intro hs he
      rw [htog]
      unfold splitParts
      rw [if_neg (show ¬ r.start_date < d by omega),
        if_neg (show ¬ r.end_date > d by omega), List.append_nil, List.append_nil]

theorem toggle_case_analysis_witness :
    (∀ v ∈ ([⟨1, 22, 31, "vacation", none⟩] : List VacRec), v.employee_id = 1) ∧
    Disj [⟨1, 22, 31, "vacation", none⟩] ∧
    toggle_vacation [⟨1, 22, 31, "vacation", none⟩] 1 25 =
      [⟨1, 22, 24, "vacation", none⟩, ⟨1, 26, 31, "vacation", none⟩] := by
  refine ⟨by decide, by decide, ?_⟩
  have h := ((toggle_case_analysis [⟨1, 22, 31, "vacation", none⟩] 1 25
      (by decide) (by decide)).2
    ⟨1, 22, 31, "vacation", none⟩ (by simp) (by decide) (by decide)).1
    (by decide) (by decide)
  exact h.trans (by decide)

/-- C2: the toggle endpoint is not atomic — on an interior day the first
committed state already has the old range deleted while no replacement is
inserted yet, and that state differs both from the prior state and from the
final one. -/
theorem toggle_commits_intermediate :
    toggleCommits [⟨1, 22, 31, "vacation", none⟩] 1 25 =
      [[], [⟨1, 22, 24, "vacation", none⟩, ⟨1, 26, 31, "vacation", none⟩]] ∧
    ([] : List VacRec) ≠ [⟨1, 22, 31, "vacation", none⟩] ∧
    ([] : List VacRec) ≠ toggle_vacation [⟨1, 22, 31, "vacation", none⟩] 1 25 := by
  decide

/-- C3 (counterexample): toggling a day adjacent to an existing range leaves
two touching ranges, so a normalized state is not kept normalized. -/
theorem toggle_adjacent_cex :
    normalizedB [⟨1, 1, 2, "vacation", none⟩] = true ∧
    toggle_vacation [⟨1, 1, 2, "vacation", none⟩] 1 3 =
      [⟨1, 1, 2, "vacation", none⟩, ⟨1, 3, 3, "vacation", none⟩] ∧
    normalizedB (toggle_vacation [⟨1, 1, 2, "vacation", none⟩] 1 3) = false := by
  decide

/-- C3 (amended): toggling preserves validity (`start ≤ end`) of every
record and pairwise day-disjointness of same-employee records, but it may
leave two adjacent ranges. -/
theorem toggle_preserves_valid_disjoint (R : List VacRec) (emp d : Int)
    (hval : ValidAll R) (hdisj : Disj R) :
    ValidAll (toggle_vacation R emp d) ∧ Disj (toggle_vacation R emp d) :=
  ⟨validAll_toggle hval, disj_toggle hdisj⟩

theorem toggle_preserves_valid_disjoint_witness :
    ValidAll [⟨1, 1, 2, "vacation", none⟩] ∧ Disj [⟨1, 1, 2, "vacation", none⟩] ∧
    (ValidAll (toggle_vacation [⟨1, 1, 2, "vacation", none⟩] 1 3) ∧
     Disj (toggle_vacation [⟨1, 1, 2, "vacation", none⟩] 1 3)) :=
  ⟨by decide, by decide,
    toggle_preserves_valid_disjoint [⟨1, 1, 2, "vacation", none⟩] 1 3
      (by decide) (by decide)⟩

/-- C4: with no exclusion, the conflict detector returns exactly the records
of the given employee passing the closed-interval overlap test
`start ≤ v.end_date ∧ end ≥ v.start_date`, all of them, in input order. -/
theorem conflicts_exactly_overlapping (employee_id s e : Int) (vacs : List Vacation) :
    get_vacation_conflicts employee_id s e vacs none =
      vacs.filter (fun v => v.employee_id == employee_id &&
        (decide (s ≤ v.end_date) && decide (e ≥ v.start_date))) := by
  induction vacs with
  | nil => rfl
  | cons v rest ih =>
    simp only [get_vacation_conflicts, excludeMatches, List.filter_cons]
    by_cases h1 : v.employee_id = employee_id
    · by_cases h2 : s ≤ v.end_date ∧ e ≥ v.start_date
      · simp [h1, h2, h2.1, h2.2, ih]
      · rw [not_and_or] at h2
        rcases h2 with h2 | h2 <;> simp [h1, h2, ih]
    · simp [h1, ih]

/-- C5: the API range-creation path performs no conflict check — with an
existing overlapping range the conflict detector is non-empty, yet the
request is persisted and answered `"created"`. -/
theorem create_range_no_conflict_check :
    get_vacation_conflicts 1 5 8 [⟨1, 1, 1, 10, "vacation", none⟩] none ≠ [] ∧
    create_vacation_range [⟨1, 1, 1, 10, "vacation", none⟩] 2 1 5 8 "vacation" none =
      ([⟨1, 1, 1, 10, "vacation", none⟩, ⟨2, 1, 5, 8, "vacation", none⟩], "created") :=
  ⟨by decide, rfl⟩

/-- C6 (counterexample): toggling the same interior day twice does not return
the original range list — `[1,3]` becomes `[1,1],[3,3],[2,2]`. -/
theorem toggle_not_list_self_inverse :
    toggle_vacation (toggle_vacation [⟨1, 1, 3, "vacation", none⟩] 1 2) 1 2 ≠
      [⟨1, 1, 3, "vacation", none⟩] := by
  decide

/-- C6 (amended): toggling the same day twice restores the original covered
day-set (self-inverse at the level of day-sets, not of range lists). -/
theorem toggle_toggle_covered (R : List VacRec) (emp d e x : Int) (hdisj : Disj R) :
    Covered (toggle_vacation (toggle_vacation R emp d) emp d) e x ↔ Covered R e x := by
  rw [covered_toggle (disj_toggle hdisj) e x]
  by_cases hc : e = emp ∧ x = d
  · rw [if_pos hc, covered_toggle hdisj emp d, if_pos ⟨rfl, rfl⟩]
    obtain ⟨he, hx⟩ := hc
    subst he
    subst hx
    exact not_not
  · rw [if_neg hc, covered_toggle hdisj e x, if_neg hc]

theorem toggle_toggle_covered_witness :
    Disj [⟨1, 1, 3, "vacation", none⟩] ∧
    (Covered (toggle_vacation (toggle_vacation [⟨1, 1, 3, "vacation", none⟩] 1 2) 1 2) 1 2 ↔
      Covered [⟨1, 1, 3, "vacation", none⟩] 1 2) :=
  ⟨by decide, toggle_toggle_covered [⟨1, 1, 3, "vacation", none⟩] 1 2 1 2 (by decide)⟩

/-- C7: the calendar projector produces exactly the days of the window that
lie inside some range of the employee (clipping, not excluding, partially
overlapping ranges), and the reported total is the cardinality of that set of
distinct days. -/
theorem calendar_projection_days_and_total (vacs : List VacRec) (empId ws we : Int) :
    vacation_dates vacs empId ws we =
      (Finset.Icc ws we).filter
        (fun day => ∃ v ∈ vacs, v.employee_id = empId ∧
          v.start_date ≤ day ∧ day ≤ v.end_date) ∧
    total_days vacs empId ws we =
      ((Finset.Icc ws we).filter
        (fun day => ∃ v ∈ vacs, v.employee_id = empId ∧
          v.start_date ≤ day ∧ day ≤ v.end_date)).card := by
  have hset : vacation_dates vacs empId ws we =
      (Finset.Icc ws we).filter
        (fun day => ∃ v ∈ vacs, v.employee_id = empId ∧
          v.start_date ≤ day ∧ day ≤ v.end_date) := by
    ext a
    simp only [vacation_dates, List.mem_toFinset, List.mem_flatMap, List.mem_filter,
      clippedDays, Finset.mem_filter, Finset.mem_Icc, beq_iff_eq, mem_rangeList,
      Bool.and_eq_true, decide_eq_true_eq]
    constructor
    · rintro ⟨v, ⟨hv, hvemp⟩, ⟨hr1, hr2⟩, hw1, hw2⟩
      exact ⟨⟨hw1, hw2⟩, v, hv, hvemp, hr1, hr2⟩
    · rintro ⟨⟨hw1, hw2⟩, v, hv, hvemp, h1, h2⟩
      exact ⟨v, ⟨hv, hvemp⟩, ⟨h1, h2⟩, hw1, hw2⟩
  exact ⟨hset, congrArg Finset.card hset⟩

/-- C8 (counterexample): with `exclude_id = 0` the Python truthiness guard
disables the exclusion, so the range whose id equals the excluded id 0 is
still returned. -/
theorem conflicts_exclude_zero_cex :
    (⟨0, 1, 1, 2, "vacation", none⟩ : Vacation) ∈
      get_vacation_conflicts 1 1 2 [⟨0, 1, 1, 2, "vacation", none⟩] (some 0) ∧
    (⟨0, 1, 1, 2, "vacation", none⟩ : Vacation).id = 0 := by
  decide

/-- C8 (amended): for every non-zero excluded id `x`, the conflict list never
contains a range whose id equals `x`. -/
theorem conflicts_never_return_excluded (employee_id s e x : Int)
    (vacs : List Vacation) (hx : x ≠ 0) :
    ∀ v ∈ get_vacation_conflicts employee_id s e vacs (some x), v.id ≠ x := by
  induction vacs with
  | nil =>
    intro v hv
    simp [get_vacation_conflicts] at hv
  | cons u rest ih =>
    intro v hv
    simp only [get_vacation_conflicts] at hv
    split_ifs at hv with h1 h2 h3
    · exact ih v hv
    · exact ih v hv
    · rcases List.mem_cons.mp hv with rfl | hv'
      · intro hid
        exact h2 (by simp [excludeMatches, hx, hid])
      · exact ih v hv'
    · exact ih v hv

theorem conflicts_never_return_excluded_witness :
    (5 : Int) ≠ 0 ∧
    ∀ v ∈ get_vacation_conflicts 1 1 2 [⟨5, 1, 1, 2, "vacation", none⟩] (some 5),
      v.id ≠ 5 :=
  ⟨by decide, conflicts_never_return_excluded 1 1 2 5 _ (by decide)⟩

/-- C9: round-trip — normalizing the expanded day-set of an already minimal
range list (sorted, valid, disjoint, non-adjacent) gives back the same list. -/
theorem normalize_expand_roundtrip (ranges : List (Int × Int)) (h : Minimal ranges) :
    normalize (expand ranges) = ranges := by
  rw [normalize_eq_normTail, sort_expand_eq h, normTail_expandList h]

theorem normalize_expand_roundtrip_witness :
    Minimal [((1 : Int), (3 : Int)), (5, 5)] ∧
    normalize (expand [((1 : Int), (3 : Int)), (5, 5)]) = [(1, 3), (5, 5)] := by
  have hmin : Minimal [((1 : Int), (3 : Int)), (5, 5)] := by
    constructor
    · decide
    · exact List.chain'_cons.mpr ⟨by norm_num, List.chain'_singleton _⟩
  exact ⟨hmin, normalize_expand_roundtrip [((1 : Int), (3 : Int)), (5, 5)] hmin⟩

/-- C10: when the toggle deletes a containing range and inserts replacements,
every replacement record keeps the original's `vacation_type`, `notes` and
owner; only the date span differs. -/
theorem toggle_replacements_frame (R : List VacRec) (emp d : Int) (v : VacRec)
    (h : findExisting R emp d = some v) :
    toggle_vacation R emp d = R.erase v ++ splitParts v emp d ∧
    ∀ r ∈ splitParts v emp d,
      r.vacation_type = v.vacation_type ∧ r.notes = v.notes ∧
      r.employee_id = v.employee_id := by
  obtain ⟨hm, hemp, h1, h2⟩ := findExisting_some h
  refine ⟨by rw [toggle_vacation, h], ?_⟩
  intro r hr
  obtain ⟨hremp, hty, hnt, -⟩ := splitParts_spec h1 h2 r hr
  exact ⟨hty, hnt, hremp.trans hemp.symm⟩

theorem toggle_replacements_frame_witness :
    findExisting [⟨1, 22, 31, "sick", some "trip"⟩] 1 25 =
      some ⟨1, 22, 31, "sick", some "trip"⟩ ∧
    (toggle_vacation [⟨1, 22, 31, "sick", some "trip"⟩] 1 25 =
      [⟨1, 22, 31, "sick", some "trip"⟩].erase ⟨1, 22, 31, "sick", some "trip"⟩ ++
        splitParts ⟨1, 22, 31, "sick", some "trip"⟩ 1 25 ∧
     ∀ r ∈ splitParts (⟨1, 22, 31, "sick", some "trip"⟩ : VacRec) 1 25,
       r.vacation_type = "sick" ∧ r.notes = some "trip" ∧ r.employee_id = 1) :=
  ⟨rfl, toggle_replacements_frame [⟨1, 22, 31, "sick", some "trip"⟩] 1 25
    ⟨1, 22, 31, "sick", some "trip"⟩ rfl⟩

end Holidays
